import Mathlib

/-!
Shallow embedding of `src/job_recommender.py`: a rule-based job
recommendation engine.  Python floats are modelled as exact rationals
(`ℚ`); Python's `round(x, 2)` is modelled as exact rational rounding to
the nearest hundredth (half away handled as half-up); Python string
operations `str.strip` / `str.lower` are modelled character-wise over
`String.data` (ASCII folding, the four ASCII whitespace characters).
Python's stable `list.sort(key=..., reverse=True)` is modelled by
`List.mergeSort` with the descending comparator, which is stable and
sorted, hence produces the same list.
-/

namespace JobRec

open List

/-- `CandidateProfile` dataclass (job_recommender.py, lines 9-18). -/
structure CandidateProfile where
  name : String
  skills : List String
  desired_titles : List String
  location : Option String := none
  remote_only : Bool := false
  min_compensation : Option ℚ := none
  experience_level : Option String := none
  industries : Option (List String) := none
deriving DecidableEq

/-- `JobPosting` dataclass (lines 21-32). -/
structure JobPosting where
  id : String
  title : String
  company : String
  description : String
  skills : List String
  location : Option String := none
  remote : Bool := false
  compensation : Option ℚ := none
  experience_level : Option String := none
  industry : Option String := none
deriving DecidableEq

/-- `Recommendation` dataclass (lines 35-39). -/
structure Recommendation where
  job : JobPosting
  score : ℚ
  rationale : String
deriving DecidableEq

/-- Remove leading and trailing whitespace characters from a character
list: the model of Python `str.strip()` (restricted to ASCII whitespace). -/
def stripChars (l : List Char) : List Char :=
  ((l.dropWhile Char.isWhitespace).reverse.dropWhile Char.isWhitespace).reverse

/-- Model of Python `str.strip()`. -/
def pyStrip (s : String) : String :=
  String.mk (stripChars s.data)

/-- Model of Python `str.lower()` (ASCII case folding). -/
def pyLower (s : String) : String :=
  String.mk (s.data.map Char.toLower)

/-- `_normalize` (lines 42-45): build the set of
`token.strip().lower()` over tokens that are non-empty and not
whitespace-only, and return it sorted.  The set former is modelled by
`dedup`; `sorted` by `insertionSort` with the lexicographic string order
(the sorted list of a finite set of distinct strings is unique, so both
the arbitrary Python set iteration order and the choice of sorting
algorithm are immaterial). -/
def normalize (tokens : List String) : List String :=
  List.insertionSort (· ≤ ·)
    ((tokens.filter (fun t => !(t == "") && !(pyStrip t == ""))).map
      (fun t => pyLower (pyStrip t))).dedup

/-- `set(_normalize(...))` used by the scorer. -/
def skillSet (tokens : List String) : Finset String :=
  (normalize tokens).toFinset

/-- Accumulating worker for `pySplit`: `acc` holds the characters of the
current word in reverse. -/
def pySplitGo : List Char → List Char → List String
  | [], acc => if acc.isEmpty then [] else [String.mk acc.reverse]
  | c :: rest, acc =>
    if c.isWhitespace then
      if acc.isEmpty then pySplitGo rest []
      else String.mk acc.reverse :: pySplitGo rest []
    else pySplitGo rest (c :: acc)

/-- Model of Python `str.split()` with no separator argument: split on
runs of whitespace, drop empty tokens. -/
def pySplit (s : String) : List String :=
  pySplitGo s.data []

/-- Model of Python `round(x, 2)` on the exact rational value. -/
def round2 (q : ℚ) : ℚ :=
  (⌊q * 100 + 1 / 2⌋ : ℚ) / 100

/-- Python truthiness of an `Optional[float]`: `None` and `0` are falsy. -/
def optQTruthy : Option ℚ → Bool
  | none => false
  | some v => !(v == 0)

/-- Python truthiness of an `Optional[str]`: `None` and `""` are falsy. -/
def optStrTruthy : Option String → Bool
  | none => false
  | some s => !(s == "")

/-- Python truthiness of an `Optional[List[str]]`: `None` and `[]` are falsy. -/
def optListTruthy : Option (List String) → Bool
  | none => false
  | some l => !(l.isEmpty)

/-- Skill-overlap rule (lines 49-59), acting on the running
(score, rationale_bits) state of `_score_job`. -/
def applySkill (p : CandidateProfile) (j : JobPosting) (st : ℚ × List String) :
    ℚ × List String :=
  let overlap := skillSet p.skills ∩ skillSet j.skills
  if overlap ≠ ∅ then
    (st.1 + (overlap.card : ℚ) / ((max (skillSet j.skills).card 1 : ℕ) : ℚ) * 60,
      st.2 ++ [toString overlap.card ++ " skill matches"])
  else st

/-- Title-match rule (lines 61-67); `job.title.split()` is `pySplit`. -/
def applyTitle (p : CandidateProfile) (j : JobPosting) (st : ℚ × List String) :
    ℚ × List String :=
  let desired_titles := (normalize p.desired_titles).toFinset
  if desired_titles ≠ ∅ then
    let title_tokens := (normalize (pySplit j.title)).toFinset
    if desired_titles ∩ title_tokens ≠ ∅ then
      (st.1 + 15, st.2 ++ ["title matches target"])
    else st
  else st

/-- Remote-preference rule (lines 69-75). -/
def applyRemote (p : CandidateProfile) (j : JobPosting) (st : ℚ × List String) :
    ℚ × List String :=
  if p.remote_only then
    if j.remote then (st.1 + 10, st.2 ++ ["remote friendly"])
    else (st.1 - 20, st.2 ++ ["not remote"])
  else st

/-- Location-match rule (lines 77-80); Python `a in b` on strings is
substring containment. -/
def applyLocation (p : CandidateProfile) (j : JobPosting) (st : ℚ × List String) :
    ℚ × List String :=
  if optStrTruthy p.location && optStrTruthy j.location then
    if (pyLower (p.location.getD (""))).data <:+:
        (pyLower (j.location.getD (""))).data then
      (st.1 + 10, st.2 ++ ["location match"])
    else st
  else st

/-- Compensation-floor rule (lines 82-88). -/
def applyComp (p : CandidateProfile) (j : JobPosting) (st : ℚ × List String) :
    ℚ × List String :=
  if optQTruthy p.min_compensation && optQTruthy j.compensation then
    if j.compensation.getD 0 ≥ p.min_compensation.getD 0 then
      (st.1 + 10, st.2 ++ ["meets compensation floor"])
    else
      (st.1 - 10, st.2 ++ ["below compensation target"])
  else st

/-- Experience-level rule (lines 90-93). -/
def applyExp (p : CandidateProfile) (j : JobPosting) (st : ℚ × List String) :
    ℚ × List String :=
  if optStrTruthy p.experience_level && optStrTruthy j.experience_level then
    if pyLower (p.experience_level.getD ("")) ==
        pyLower (j.experience_level.getD ("")) then
      (st.1 + 5, st.2 ++ ["experience level match"])
    else st
  else st

/-- Industry-preference rule (lines 95-98). -/
def applyIndustry (p : CandidateProfile) (j : JobPosting) (st : ℚ × List String) :
    ℚ × List String :=
  if optListTruthy p.industries && optStrTruthy j.industry then
    if pyLower (j.industry.getD ("")) ∈ normalize (p.industries.getD []) then
      (st.1 + 5, st.2 ++ ["industry preference"])
    else st
  else st

/-- The running (score, rationale_bits) state after all seven rules of
`_score_job` (lines 53-98), starting from `(0.0, [])`. -/
def scoreState (p : CandidateProfile) (j : JobPosting) : ℚ × List String :=
  applyIndustry p j (applyExp p j (applyComp p j (applyLocation p j
    (applyRemote p j (applyTitle p j (applySkill p j (0, [])))))))

/-- `_score_job` (lines 48-105): run the rules, fall back to
"general fit" when no rationale bit was produced, round the score. -/
def scoreJob (p : CandidateProfile) (j : JobPosting) : Recommendation :=
  let st := scoreState p j
  let bits := if st.2 = [] then ["general fit"] else st.2
  let sep : String := "; "
  { job := j, score := round2 st.1, rationale := String.intercalate sep bits }

/-- Python slice `l[:k]` for an arbitrary integer `k`. -/
def pyTake (l : List α) (k : ℤ) : List α :=
  if 0 ≤ k then l.take k.toNat else l.take (l.length - (-k).toNat)

/-- Descending comparator on scores used by
`scored.sort(key=lambda rec: rec.score, reverse=True)` (line 127). -/
def descLE (a b : Recommendation) : Bool :=
  decide (b.score ≤ a.score)

/-- The deterministic path of `recommend_jobs` (lines 126-128): score
every job, sort stably by descending score, truncate to `top_k`. -/
def deterministicRank (p : CandidateProfile) (jobs : List JobPosting)
    (top_k : ℤ) : List Recommendation :=
  pyTake ((jobs.map (scoreJob p)).mergeSort descLE) top_k

/-- The environment variables read by `recommend_jobs` (lines 115, 118):
`USE_GPT_RECOMMENDER` and `OPENAI_API_KEY`. -/
structure Env where
  useGptRecommender : Option String := none
  openaiApiKey : Option String := none
deriving DecidableEq

/-- `recommend_jobs` (lines 108-128).  The external `_gpt_rank` call is
abstracted as an oracle: `none` models the call raising an exception,
`some recs` models it returning `recs`; the selector's behaviour (lines
118-124) is modelled exactly. -/
def recommend_jobs
    (gptRank : CandidateProfile → List JobPosting → ℤ → Option (List Recommendation))
    (env : Env) (p : CandidateProfile) (jobs : List JobPosting)
    (top_k : ℤ) (use_gpt : Option Bool) : List Recommendation :=
  let ug : Bool :=
    match use_gpt with
    | some b => b
    | none => pyLower (env.useGptRecommender.getD ("false")) == "true"
  if ug && optStrTruthy env.openaiApiKey then
    match gptRank p jobs top_k with
    | some recs => if recs.isEmpty then deterministicRank p jobs top_k else recs
    | none => deterministicRank p jobs top_k
  else deterministicRank p jobs top_k

/-- One parsed entry of the external model's structured response:
an `{id, score, rationale}` item after JSON parsing and the
`float(...)` / `str(...)` coercions of lines 189-190. -/
structure GptItem where
  id : String
  score : ℚ
  rationale : String
deriving DecidableEq

/-- The dict `{job.id: job for job in jobs}` followed by `.get(i)`
(line 181): iterate in list order, later bindings overwrite earlier. -/
def idLookup (jobs : List JobPosting) (i : String) : Option JobPosting :=
  jobs.foldl (fun acc j => if j.id == i then some j else acc) none

/-- The pure tail of `_gpt_rank` (lines 180-194): resolve each parsed
entry's id against the input jobs, silently dropping entries with no
match, then truncate to `top_k`. -/
def gptResolve (jobs : List JobPosting) (items : List GptItem)
    (top_k : ℤ) : List Recommendation :=
  pyTake
    (items.filterMap (fun it =>
      (idLookup jobs it.id).map (fun j =>
        { job := j, score := it.score, rationale := it.rationale })))
    top_k

/-- The score contribution of a single rule, read off by running the
rule on the initial state. -/
def ruleDelta (f : ℚ × List String → ℚ × List String) : ℚ :=
  (f (0, [])).1

/-- The rationale fragments contributed by a single rule. -/
def ruleFrags (f : ℚ × List String → ℚ × List String) : List String :=
  (f (0, [])).2

theorem applySkill_shift (p : CandidateProfile) (j : JobPosting) (st : ℚ × List String) :
    applySkill p j st = (st.1 + ruleDelta (applySkill p j), st.2 ++ ruleFrags (applySkill p j)) := by
  simp only [applySkill, ruleDelta, ruleFrags]
  split <;> simp

theorem applyTitle_shift (p : CandidateProfile) (j : JobPosting) (st : ℚ × List String) :
    applyTitle p j st = (st.1 + ruleDelta (applyTitle p j), st.2 ++ ruleFrags (applyTitle p j)) := by
  simp only [applyTitle, ruleDelta, ruleFrags]
  split <;> [skip; simp] <;> split <;> simp

theorem applyRemote_shift (p : CandidateProfile) (j : JobPosting) (st : ℚ × List String) :
    applyRemote p j st = (st.1 + ruleDelta (applyRemote p j), st.2 ++ ruleFrags (applyRemote p j)) := by
  simp only [applyRemote, ruleDelta, ruleFrags]
  split <;> [skip; simp] <;> split <;> simp <;> ring

theorem applyLocation_shift (p : CandidateProfile) (j : JobPosting) (st : ℚ × List String) :
    applyLocation p j st = (st.1 + ruleDelta (applyLocation p j), st.2 ++ ruleFrags (applyLocation p j)) := by
  simp only [applyLocation, ruleDelta, ruleFrags]
  split <;> [skip; simp] <;> split <;> simp

theorem applyComp_shift (p : CandidateProfile) (j : JobPosting) (st : ℚ × List String) :
    applyComp p j st = (st.1 + ruleDelta (applyComp p j), st.2 ++ ruleFrags (applyComp p j)) := by
  simp only [applyComp, ruleDelta, ruleFrags]
  split <;> [skip; simp] <;> split <;> simp <;> ring

theorem applyExp_shift (p : CandidateProfile) (j : JobPosting) (st : ℚ × List String) :
    applyExp p j st = (st.1 + ruleDelta (applyExp p j), st.2 ++ ruleFrags (applyExp p j)) := by
  simp only [applyExp, ruleDelta, ruleFrags]
  split <;> [skip; simp] <;> split <;> simp

theorem applyIndustry_shift (p : CandidateProfile) (j : JobPosting) (st : ℚ × List String) :
    applyIndustry p j st = (st.1 + ruleDelta (applyIndustry p j), st.2 ++ ruleFrags (applyIndustry p j)) := by
  simp only [applyIndustry, ruleDelta, ruleFrags]
  split <;> [skip; simp] <;> split <;> simp

/-- The scorer state decomposes as the sum of the seven independent rule
contributions, with the rationale fragments concatenated in rule order. -/
theorem scoreState_decomp (p : CandidateProfile) (j : JobPosting) :
    scoreState p j =
      (ruleDelta (applySkill p j) + ruleDelta (applyTitle p j) + ruleDelta (applyRemote p j) +
        ruleDelta (applyLocation p j) + ruleDelta (applyComp p j) + ruleDelta (applyExp p j) +
        ruleDelta (applyIndustry p j),
      ruleFrags (applySkill p j) ++ ruleFrags (applyTitle p j) ++ ruleFrags (applyRemote p j) ++
        ruleFrags (applyLocation p j) ++ ruleFrags (applyComp p j) ++ ruleFrags (applyExp p j) ++
        ruleFrags (applyIndustry p j)) := by
  rw [scoreState, applyIndustry_shift, applyExp_shift, applyComp_shift, applyLocation_shift,
    applyRemote_shift, applyTitle_shift, applySkill_shift]
  simp [List.append_assoc, add_assoc]

theorem round2_mono {a b : ℚ} (h : a ≤ b) : round2 a ≤ round2 b := by
  unfold round2
  have hf : (⌊a * 100 + 1 / 2⌋ : ℤ) ≤ ⌊b * 100 + 1 / 2⌋ :=
    Int.floor_le_floor (by linarith)
  have : ((⌊a * 100 + 1 / 2⌋ : ℤ) : ℚ) ≤ ((⌊b * 100 + 1 / 2⌋ : ℤ) : ℚ) := by exact_mod_cast hf
  linarith

theorem char_toNat_ofNat {m : ℕ} (h : m < 55296) : (Char.ofNat m).toNat = m := by
  have hv : m.isValidChar := Or.inl h
  simp only [Char.ofNat]
  rw [dif_pos hv]
  rfl

theorem toLower_toLower (c : Char) : c.toLower.toLower = c.toLower := by
  unfold Char.toLower
  by_cases h : c.toNat ≥ 65 ∧ c.toNat ≤ 90
  · rw [if_pos h, char_toNat_ofNat (by omega), if_neg (by omega)]
  · rw [if_neg h, if_neg h]

theorem toNat_of_isWhitespace {c : Char} (h : c.isWhitespace = true) :
    c.toNat = 32 ∨ c.toNat = 9 ∨ c.toNat = 13 ∨ c.toNat = 10 := by
  simp only [Char.isWhitespace, Bool.or_eq_true, decide_eq_true_eq] at h
  rcases h with ((h | h) | h) | h <;> subst h <;> simp

theorem toLower_of_isWhitespace {c : Char} (h : c.isWhitespace = true) :
    c.toLower = c := by
  have := toNat_of_isWhitespace h
  unfold Char.toLower
  rw [if_neg (by omega)]

theorem isWhitespace_toLower (c : Char) : c.toLower.isWhitespace = c.isWhitespace := by
  cases hw : c.isWhitespace
  · cases hw2 : c.toLower.isWhitespace
    · rfl
    · exfalso
      have h2 := toNat_of_isWhitespace hw2
      unfold Char.toLower at h2
      by_cases h : c.toNat ≥ 65 ∧ c.toNat ≤ 90
      · rw [if_pos h, char_toNat_ofNat (by omega)] at h2
        omega
      · rw [if_neg h] at h2
        rcases h2 with h2 | h2 | h2 | h2
        · have hc : c = ' ' := @Char.eq_of_val_eq c ' ' (UInt32.toNat.inj h2)
          subst hc
          exact absurd hw (by decide)
        · have hc : c = Char.ofNat 9 := @Char.eq_of_val_eq c (Char.ofNat 9) (UInt32.toNat.inj h2)
          subst hc
          exact absurd hw (by decide)
        · have hc : c = Char.ofNat 13 := @Char.eq_of_val_eq c (Char.ofNat 13) (UInt32.toNat.inj h2)
          subst hc
          exact absurd hw (by decide)
        · have hc : c = Char.ofNat 10 := @Char.eq_of_val_eq c (Char.ofNat 10) (UInt32.toNat.inj h2)
          subst hc
          exact absurd hw (by decide)
  · rw [toLower_of_isWhitespace hw, hw]

theorem dropWhile_map_comm {α : Type} {f : α → α} {p : α → Bool}
    (hp : ∀ a, p (f a) = p a) (l : List α) :
    (l.map f).dropWhile p = (l.dropWhile p).map f := by
  induction l with
  | nil => rfl
  | cons a t ih =>
    simp only [List.map_cons, List.dropWhile_cons, hp a]
    cases h : p a <;> simp [h, ih]

theorem dropWhile_idem {α : Type} {p : α → Bool} (l : List α) :
    (l.dropWhile p).dropWhile p = l.dropWhile p := by
  induction l with
  | nil => rfl
  | cons a t ih =>
    cases h : p a <;> simp [List.dropWhile_cons, h, ih]

theorem head_dropWhile_false {α : Type} {p : α → Bool} (l : List α) :
    ∀ x ∈ (l.dropWhile p).head?, p x = false := by
  induction l with
  | nil => simp
  | cons a t ih =>
    cases h : p a
    · simp [List.dropWhile_cons, h]
    · simp only [List.dropWhile_cons, h, if_true]
      exact ih

theorem dropWhile_eq_self_of_head {α : Type} {p : α → Bool} {l : List α}
    (h : ∀ x ∈ l.head?, p x = false) : l.dropWhile p = l := by
  cases l with
  | nil => rfl
  | cons a t =>
    have := h a (by simp)
    simp [List.dropWhile_cons, this]

theorem getLast_dropWhile {α : Type} {p : α → Bool} (l : List α) :
    l.dropWhile p = [] ∨ (l.dropWhile p).getLast? = l.getLast? := by
  induction l with
  | nil => exact Or.inl rfl
  | cons a t ih =>
    cases h : p a
    · right
      simp [List.dropWhile_cons, h]
    · simp only [List.dropWhile_cons, h, if_true]
      rcases ih with ih | ih
      · exact Or.inl ih
      · cases t with
        | nil => exact Or.inl rfl
        | cons b u =>
          right
          rw [ih, List.getLast?_cons_cons]

theorem stripChars_idem (l : List Char) : stripChars (stripChars l) = stripChars l := by
  unfold stripChars
  set A := l.dropWhile Char.isWhitespace with hA
  set B := A.reverse.dropWhile Char.isWhitespace with hB
  rcases getLast_dropWhile A.reverse (p := Char.isWhitespace) with hE | hL
  · rw [← hB] at hE
    rw [hE]
    rfl
  · rw [← hB] at hL
    have h1 : B.reverse.dropWhile Char.isWhitespace = B.reverse := by
      apply dropWhile_eq_self_of_head
      intro x hx
      rw [List.head?_reverse, hL, List.getLast?_reverse] at hx
      exact head_dropWhile_false _ x hx
    rw [h1, List.reverse_reverse, hB, dropWhile_idem]

theorem stripChars_map_toLower (l : List Char) :
    stripChars (l.map Char.toLower) = (stripChars l).map Char.toLower := by
  unfold stripChars
  rw [dropWhile_map_comm isWhitespace_toLower, ← List.map_reverse,
    dropWhile_map_comm isWhitespace_toLower, ← List.map_reverse]

theorem string_eq_empty_iff (s : String) : s = "" ↔ s.data = [] := by
  cases s with
  | mk d =>
    constructor
    · intro h
      rw [h]
    · intro h
      rw [show d = [] from h]

theorem pyStrip_empty : pyStrip ("") = "" := rfl

theorem pyStrip_pyStrip (s : String) : pyStrip (pyStrip s) = pyStrip s := by
  simp [pyStrip, stripChars_idem]

theorem pyLower_pyLower (s : String) : pyLower (pyLower s) = pyLower s := by
  simp only [pyLower]
  congr 1
  rw [List.map_map]
  exact List.map_congr_left (fun a _ => toLower_toLower a)

theorem pyStrip_pyLower (s : String) : pyStrip (pyLower s) = pyLower (pyStrip s) := by
  simp only [pyStrip, pyLower]
  congr 1
  exact stripChars_map_toLower s.data

theorem pyLower_eq_empty_iff (s : String) : pyLower s = "" ↔ s = "" := by
  rw [string_eq_empty_iff, string_eq_empty_iff]
  simp [pyLower]

/-- Canonical form of a token under `_normalize`: `token.strip().lower()`. -/
def normElem (t : String) : String :=
  pyLower (pyStrip t)

theorem normElem_fixed (t : String) :
    pyStrip (normElem t) = normElem t ∧ pyLower (normElem t) = normElem t := by
  constructor
  · rw [normElem, pyStrip_pyLower, pyStrip_pyStrip]
  · rw [normElem, pyLower_pyLower]

theorem normElem_eq_empty_iff (t : String) : normElem t = "" ↔ pyStrip t = "" := by
  rw [normElem, pyLower_eq_empty_iff]

theorem filterCond_iff (t : String) :
    (!(t == "") && !(pyStrip t == "")) = true ↔ pyStrip t ≠ "" := by
  constructor
  · intro h
    simp only [Bool.and_eq_true, Bool.not_eq_true', beq_eq_false_iff_ne] at h
    exact h.2
  · intro h
    simp only [Bool.and_eq_true, Bool.not_eq_true', beq_eq_false_iff_ne]
    refine ⟨fun ht => h ?hh, h⟩
    rw [ht]
    rfl

theorem mem_normalize {x : String} {tokens : List String} :
    x ∈ normalize tokens ↔ ∃ t ∈ tokens, pyStrip t ≠ "" ∧ x = normElem t := by
  unfold normalize
  rw [List.mem_insertionSort, List.mem_dedup, List.mem_map]
  constructor
  · rintro ⟨t, ht, rfl⟩
    rw [List.mem_filter] at ht
    exact ⟨t, ht.1, (filterCond_iff t).1 ht.2, rfl⟩
  · rintro ⟨t, ht, hs, rfl⟩
    exact ⟨t, List.mem_filter.2 ⟨ht, (filterCond_iff t).2 hs⟩, rfl⟩

theorem normalize_sorted (tokens : List String) :
    (normalize tokens).Sorted (· ≤ ·) :=
  List.sorted_insertionSort _ _

theorem normalize_nodup (tokens : List String) : (normalize tokens).Nodup :=
  (List.perm_insertionSort _ _).nodup_iff.2 (List.nodup_dedup _)

theorem normalize_sorted_lt (tokens : List String) :
    (normalize tokens).Sorted (· < ·) :=
  (normalize_sorted tokens).lt_of_le (normalize_nodup tokens)

theorem normalize_elem_fixed {x : String} {tokens : List String}
    (h : x ∈ normalize tokens) : pyStrip x = x ∧ pyLower x = x ∧ x ≠ "" := by
  rw [mem_normalize] at h
  obtain ⟨t, -, hne, rfl⟩ := h
  refine ⟨(normElem_fixed t).1, (normElem_fixed t).2, ?he⟩
  rw [Ne, normElem_eq_empty_iff]
  exact hne

/-- C7: the Normalizer is idempotent: normalizing an already-normalized
sequence returns it unchanged. -/
theorem normalize_idempotent (tokens : List String) :
    normalize (normalize tokens) = normalize tokens := by
  conv_lhs => rw [normalize]
  have hfilter : (normalize tokens).filter (fun t => !(t == "") && !(pyStrip t == "")) =
      normalize tokens := by
    apply List.filter_eq_self.2
    intro a ha
    have h := normalize_elem_fixed ha
    rw [filterCond_iff, h.1]
    exact h.2.2
  rw [hfilter]
  have h1 : ∀ a ∈ normalize tokens, pyLower (pyStrip a) = id a := by
    intro a ha
    have h := normalize_elem_fixed ha
    rw [h.1, h.2.1]
    rfl
  rw [List.map_congr_left h1, List.map_id,
    List.dedup_eq_self.2 (normalize_nodup tokens)]
  exact (normalize_sorted tokens).insertionSort_eq

/-- C6: the Normalizer returns a strictly sorted (hence deduplicated)
list; every output entry is the trimmed, lower-cased form of some input
entry that is not empty or whitespace-only; every such input entry is
represented; and normalizing ["Python", "python", " PYTHON "] yields
["python"].  (Totality — "never fails" — holds because `normalize` is a
total function.) -/
theorem normalize_spec (l : List String) :
    (normalize l).Sorted (· < ·) ∧
    (∀ s ∈ normalize l, ∃ t ∈ l, pyStrip t ≠ "" ∧ s = pyLower (pyStrip t)) ∧
    (∀ t ∈ l, pyStrip t ≠ "" → pyLower (pyStrip t) ∈ normalize l) ∧
    normalize ["Python", "python", " PYTHON "] = ["python"] := by
  refine ⟨normalize_sorted_lt l, ?h2, ?h3, by decide⟩
  · intro s hs
    exact mem_normalize.1 hs
  · intro t ht hne
    exact mem_normalize.2 ⟨t, ht, hne, rfl⟩

/-- Closed-form instance of `normalize_spec`: the element-soundness
direction applied to a concrete token list. -/
theorem normalize_spec_witness :
    pyLower (pyStrip (" Rust ")) ∈ normalize ["", "  ", " Rust "] := by
  have h := (normalize_spec ["", "  ", " Rust "]).2.2
  exact h.1 (" Rust ") (by decide) (by decide)

theorem descLE_trans (a b c : Recommendation) :
    descLE a b → descLE b c → descLE a c := by
  simp only [descLE, decide_eq_true_eq]
  exact fun h1 h2 => le_trans h2 h1

theorem descLE_total (a b : Recommendation) : descLE a b || descLE b a := by
  simp only [descLE, Bool.or_eq_true, decide_eq_true_eq]
  exact le_total b.score a.score

theorem pyTake_sublist (l : List α) (k : ℤ) : pyTake l k <+ l := by
  unfold pyTake
  split <;> exact List.take_sublist _ _

theorem pyTake_nonneg (l : List α) {k : ℤ} (h : 0 ≤ k) :
    pyTake l k = l.take k.toNat := if_pos h

/-- C1: for `top_k ≥ 0` and a job list of length `n`, the deterministic
ranking returns exactly `min(top_k, n)` recommendations, ordered by
descending score. -/
theorem deterministicRank_length_sorted (p : CandidateProfile)
    (jobs : List JobPosting) (k : ℤ) (hk : 0 ≤ k) :
    (deterministicRank p jobs k).length = min k.toNat jobs.length ∧
    (deterministicRank p jobs k).Sorted (fun a b => b.score ≤ a.score) := by
  constructor
  · unfold deterministicRank
    rw [pyTake_nonneg _ hk]
    simp
  · have hs : ((jobs.map (scoreJob p)).mergeSort descLE).Pairwise
        (fun a b => b.score ≤ a.score) := by
      have h := List.sorted_mergeSort
        (fun a b c => descLE_trans a b c) descLE_total (jobs.map (scoreJob p))
      exact h.imp (fun hab => by
        simpa only [descLE, decide_eq_true_eq] using hab)
    exact hs.sublist (pyTake_sublist _ _)

/-- Sample inputs used by the closed witness instances. -/
def pW : CandidateProfile :=
  { name := "w", skills := ["python"], desired_titles := [] }

def jW1 : JobPosting :=
  { id := "j1", title := "T1", company := "c", description := "d", skills := ["python"] }

def jW2 : JobPosting :=
  { id := "j2", title := "T1", company := "c", description := "d", skills := ["python"] }

/-- Closed instance of `deterministicRank_length_sorted` at `top_k = 2`
over one job. -/
theorem deterministicRank_length_sorted_witness :
    (deterministicRank pW [jW1] 2).length = min (2 : ℤ).toNat [jW1].length ∧
    (deterministicRank pW [jW1] 2).Sorted (fun a b => b.score ≤ a.score) :=
  deterministicRank_length_sorted pW [jW1] 2 (by decide)

theorem idLookup_mem {jobs : List JobPosting} {i : String} {j : JobPosting}
    (h : idLookup jobs i = some j) : j ∈ jobs := by
  unfold idLookup at h
  suffices hg : ∀ (js : List JobPosting) (acc : Option JobPosting),
      js.foldl (fun acc j => if j.id == i then some j else acc) acc = some j →
      j ∈ js ∨ acc = some j by
    rcases hg jobs none h with hm | hn
    · exact hm
    · exact absurd hn (by simp)
  intro js
  induction js with
  | nil => exact fun acc h => Or.inr h
  | cons a t ih =>
    intro acc h
    rw [List.foldl_cons] at h
    rcases ih _ h with hm | hn
    · exact Or.inl (List.mem_cons_of_mem a hm)
    · by_cases ha : a.id == i
      · rw [if_pos ha] at hn
        exact Or.inl (by simp [Option.some.injEq] at hn; rw [← hn]; exact List.mem_cons_self a t)
      · rw [if_neg ha] at hn
        exact Or.inr hn

/-- C2: referential integrity — every returned Recommendation's job is
one of the input jobs, both on the deterministic path and on the
external-model path (where unmatched ids are silently dropped). -/
theorem referential_integrity (p : CandidateProfile) (jobs : List JobPosting) (k : ℤ) :
    (∀ r ∈ deterministicRank p jobs k, r.job ∈ jobs) ∧
    (∀ items : List GptItem, ∀ r ∈ gptResolve jobs items k, r.job ∈ jobs) := by
  constructor
  · intro r hr
    have h1 : r ∈ (jobs.map (scoreJob p)).mergeSort descLE :=
      (pyTake_sublist _ _).subset hr
    rw [List.mem_mergeSort, List.mem_map] at h1
    obtain ⟨j, hj, rfl⟩ := h1
    exact hj
  · intro items r hr
    have h1 : r ∈ items.filterMap (fun it =>
        (idLookup jobs it.id).map (fun j =>
          { job := j, score := it.score, rationale := it.rationale : Recommendation })) :=
      (pyTake_sublist _ _).subset hr
    rw [List.mem_filterMap] at h1
    obtain ⟨it, -, hit⟩ := h1
    cases hl : idLookup jobs it.id with
    | none => rw [hl] at hit; simp at hit
    | some j =>
      rw [hl] at hit
      simp only [Option.map_some', Option.some.injEq] at hit
      rw [← hit]
      exact idLookup_mem hl

/-- Closed instance of `referential_integrity`: the single
recommendation returned over a one-job list references that job. -/
theorem referential_integrity_witness : (scoreJob pW jW1).job ∈ [jW1] := by
  have hm : scoreJob pW jW1 ∈ deterministicRank pW [jW1] 1 := by
    have he : deterministicRank pW [jW1] 1 = [scoreJob pW jW1] := by
      simp [deterministicRank, pyTake]
    rw [he]
    exact List.mem_singleton.2 rfl
  exact (referential_integrity pW [jW1] 1).1 (scoreJob pW jW1) hm

/-- C3: when the credential is absent (unset or empty), `recommend_jobs`
takes the deterministic path exclusively, whatever the external oracle
would do and whatever the resolved `use_gpt` flag is, and its output is
identical to an explicit `use_gpt = false` call.  (The operation is a
total function, so it never fails.) -/
theorem recommend_jobs_fallback
    (g : CandidateProfile → List JobPosting → ℤ → Option (List Recommendation))
    (env : Env) (p : CandidateProfile) (jobs : List JobPosting) (k : ℤ)
    (hkey : optStrTruthy env.openaiApiKey = false) (u : Option Bool) :
    recommend_jobs g env p jobs k u = deterministicRank p jobs k ∧
    recommend_jobs g env p jobs k u = recommend_jobs g env p jobs k (some false) := by
  have h1 : ∀ v, recommend_jobs g env p jobs k v = deterministicRank p jobs k := by
    intro v
    simp [recommend_jobs, hkey]
  exact ⟨h1 u, (h1 u).trans (h1 (some false)).symm⟩

/-- Closed instance of `recommend_jobs_fallback` with the flag forced on
but no credential configured. -/
theorem recommend_jobs_fallback_witness :
    recommend_jobs (fun _ _ _ => none)
        { useGptRecommender := some "true", openaiApiKey := none }
        pW [jW1] 5 (some true) =
      deterministicRank pW [jW1] 5 ∧
    recommend_jobs (fun _ _ _ => none)
        { useGptRecommender := some "true", openaiApiKey := none }
        pW [jW1] 5 (some true) =
      recommend_jobs (fun _ _ _ => none)
        { useGptRecommender := some "true", openaiApiKey := none }
        pW [jW1] 5 (some false) :=
  recommend_jobs_fallback (fun _ _ _ => none)
    { useGptRecommender := some "true", openaiApiKey := none }
    pW [jW1] 5 (by decide) (some true)

/-- Combined score contribution of rules 2-7 (everything except the
skill-overlap rule). -/
def restDelta (p : CandidateProfile) (j : JobPosting) : ℚ :=
  ruleDelta (applyTitle p j) + ruleDelta (applyRemote p j) + ruleDelta (applyLocation p j) +
    ruleDelta (applyComp p j) + ruleDelta (applyExp p j) + ruleDelta (applyIndustry p j)

/-- Combined rationale fragments of rules 2-7. -/
def restFrags (p : CandidateProfile) (j : JobPosting) : List String :=
  ruleFrags (applyTitle p j) ++ ruleFrags (applyRemote p j) ++ ruleFrags (applyLocation p j) ++
    ruleFrags (applyComp p j) ++ ruleFrags (applyExp p j) ++ ruleFrags (applyIndustry p j)

theorem scoreState_decomp_skill (p : CandidateProfile) (j : JobPosting) :
    scoreState p j =
      (ruleDelta (applySkill p j) + restDelta p j,
       ruleFrags (applySkill p j) ++ restFrags p j) := by
  rw [scoreState_decomp, restDelta, restFrags]
  refine Prod.ext ?ha ?hb
  · simp only []
    ring
  · simp [List.append_assoc]

theorem skill_fire_delta {p : CandidateProfile} {j : JobPosting}
    (h : skillSet p.skills ∩ skillSet j.skills ≠ ∅) :
    ruleDelta (applySkill p j) =
      ((skillSet p.skills ∩ skillSet j.skills).card : ℚ) /
        ((max (skillSet j.skills).card 1 : ℕ) : ℚ) * 60 := by
  simp only [ruleDelta, applySkill]
  rw [if_pos h]
  simp

theorem skill_fire_frags {p : CandidateProfile} {j : JobPosting}
    (h : skillSet p.skills ∩ skillSet j.skills ≠ ∅) :
    ruleFrags (applySkill p j) =
      [toString (skillSet p.skills ∩ skillSet j.skills).card ++ " skill matches"] := by
  simp only [ruleFrags, applySkill]
  rw [if_pos h]
  simp

theorem skill_nofire {p : CandidateProfile} {j : JobPosting}
    (h : skillSet p.skills ∩ skillSet j.skills = ∅) :
    ruleDelta (applySkill p j) = 0 ∧ ruleFrags (applySkill p j) = [] := by
  constructor <;> simp [ruleDelta, ruleFrags, applySkill, h]

/-- C4: when the normalized skill sets intersect, the skill-overlap rule
contributes exactly `|intersection| / max(|job.skills|, 1) * 60` to the
score and prepends the fragment "n skill matches"; when they do not
intersect it contributes nothing, the state being exactly the
contribution of the remaining six rules either way. -/
theorem skill_overlap_rule (p : CandidateProfile) (j : JobPosting) :
    (skillSet p.skills ∩ skillSet j.skills ≠ ∅ →
      scoreState p j =
        (((skillSet p.skills ∩ skillSet j.skills).card : ℚ) /
            ((max (skillSet j.skills).card 1 : ℕ) : ℚ) * 60 + restDelta p j,
         (toString (skillSet p.skills ∩ skillSet j.skills).card ++ " skill matches") ::
           restFrags p j)) ∧
    (skillSet p.skills ∩ skillSet j.skills = ∅ →
      scoreState p j = (restDelta p j, restFrags p j)) := by
  constructor
  · intro h
    rw [scoreState_decomp_skill, skill_fire_delta h, skill_fire_frags h]
    simp
  · intro h
    rw [scoreState_decomp_skill, (skill_nofire h).1, (skill_nofire h).2]
    simp

/-- Closed instance of `skill_overlap_rule` on a profile and job sharing
the single normalized skill "python". -/
theorem skill_overlap_rule_witness :
    scoreState pW jW1 =
      (((skillSet pW.skills ∩ skillSet jW1.skills).card : ℚ) /
          ((max (skillSet jW1.skills).card 1 : ℕ) : ℚ) * 60 + restDelta pW jW1,
       (toString (skillSet pW.skills ∩ skillSet jW1.skills).card ++ " skill matches") ::
         restFrags pW jW1) :=
  (skill_overlap_rule pW jW1).1 (by decide)

/-- C5: the compensation-floor rule fires only when both
`profile.min_compensation` and `job.compensation` are present and
non-zero (zero means "no preference" and disables the rule entirely);
when it fires it adds 10 with rationale "meets compensation floor" if
the job's compensation meets the floor, else subtracts 10 with rationale
"below compensation target". -/
theorem comp_rule (p : CandidateProfile) (j : JobPosting) (st : ℚ × List String) :
    ((optQTruthy p.min_compensation && optQTruthy j.compensation) = false →
      applyComp p j st = st) ∧
    (p.min_compensation = some 0 ∨ j.compensation = some 0 →
      applyComp p j st = st) ∧
    (∀ m c : ℚ, p.min_compensation = some m → j.compensation = some c → m ≠ 0 → c ≠ 0 →
      (c ≥ m → applyComp p j st = (st.1 + 10, st.2 ++ ["meets compensation floor"])) ∧
      (c < m → applyComp p j st = (st.1 - 10, st.2 ++ ["below compensation target"]))) := by
  refine ⟨?h1, ?h2, ?h3⟩
  · intro h
    rw [applyComp, if_neg]
    rw [h]
    simp
  · intro h
    rw [applyComp, if_neg]
    rcases h with h | h <;> rw [h] <;> simp [optQTruthy]
  · intro m c hm hc hm0 hc0
    have ht : (optQTruthy p.min_compensation && optQTruthy j.compensation) = true := by
      rw [hm, hc]
      simp [optQTruthy, hm0, hc0]
    constructor
    · intro hge
      have hcond : j.compensation.getD 0 ≥ p.min_compensation.getD 0 := by
        rw [hm, hc]
        simpa using hge
      rw [applyComp, if_pos ht, if_pos hcond]
    · intro hlt
      have hcond : ¬(j.compensation.getD 0 ≥ p.min_compensation.getD 0) := by
        rw [hm, hc]
        simpa using not_le.2 hlt
      rw [applyComp, if_pos ht, if_neg hcond]

/-- Closed instance of `comp_rule`: floor 100 against compensation 50
subtracts 10 and reports "below compensation target". -/
theorem comp_rule_witness :
    applyComp
        { name := "w", skills := [], desired_titles := [], min_compensation := some 100 }
        { id := "jc", title := "T", company := "c", description := "d", skills := [],
          compensation := some 50 }
        (0, []) =
      ((0 : ℚ) - 10, ([] : List String) ++ ["below compensation target"]) :=
  ((comp_rule
      { name := "w", skills := [], desired_titles := [], min_compensation := some 100 }
      { id := "jc", title := "T", company := "c", description := "d", skills := [],
        compensation := some 50 }
      (0, [])).2.2 100 50 rfl rfl (by decide) (by decide)).2 (by decide)

theorem skillDelta_bounds (p : CandidateProfile) (j : JobPosting) :
    0 ≤ ruleDelta (applySkill p j) ∧ ruleDelta (applySkill p j) ≤ 60 := by
  by_cases h : skillSet p.skills ∩ skillSet j.skills ≠ ∅
  · rw [skill_fire_delta h]
    have hpos : (0 : ℚ) < ((max (skillSet j.skills).card 1 : ℕ) : ℚ) := by
      have : 1 ≤ max (skillSet j.skills).card 1 := le_max_right _ _
      exact_mod_cast lt_of_lt_of_le zero_lt_one (by exact_mod_cast this)
    have hsub : (skillSet p.skills ∩ skillSet j.skills).card ≤
        max (skillSet j.skills).card 1 :=
      le_trans (Finset.card_le_card Finset.inter_subset_right) (le_max_left _ _)
    constructor
    · positivity
    · have hle1 : ((skillSet p.skills ∩ skillSet j.skills).card : ℚ) /
          ((max (skillSet j.skills).card 1 : ℕ) : ℚ) ≤ 1 :=
        (div_le_one hpos).2 (by exact_mod_cast hsub)
      nlinarith
  · rw [not_not] at h
    rw [(skill_nofire h).1]
    norm_num

theorem titleDelta_bounds (p : CandidateProfile) (j : JobPosting) :
    0 ≤ ruleDelta (applyTitle p j) ∧ ruleDelta (applyTitle p j) ≤ 15 := by
  simp only [ruleDelta, applyTitle]
  split_ifs <;> norm_num

theorem remoteDelta_bounds (p : CandidateProfile) (j : JobPosting) :
    -20 ≤ ruleDelta (applyRemote p j) ∧ ruleDelta (applyRemote p j) ≤ 10 := by
  simp only [ruleDelta, applyRemote]
  split_ifs <;> norm_num

theorem locationDelta_bounds (p : CandidateProfile) (j : JobPosting) :
    0 ≤ ruleDelta (applyLocation p j) ∧ ruleDelta (applyLocation p j) ≤ 10 := by
  simp only [ruleDelta, applyLocation]
  split_ifs <;> norm_num

theorem compDelta_bounds (p : CandidateProfile) (j : JobPosting) :
    -10 ≤ ruleDelta (applyComp p j) ∧ ruleDelta (applyComp p j) ≤ 10 := by
  simp only [ruleDelta, applyComp]
  split_ifs <;> norm_num

theorem expDelta_bounds (p : CandidateProfile) (j : JobPosting) :
    0 ≤ ruleDelta (applyExp p j) ∧ ruleDelta (applyExp p j) ≤ 5 := by
  simp only [ruleDelta, applyExp]
  split_ifs <;> norm_num

theorem industryDelta_bounds (p : CandidateProfile) (j : JobPosting) :
    0 ≤ ruleDelta (applyIndustry p j) ∧ ruleDelta (applyIndustry p j) ≤ 5 := by
  simp only [ruleDelta, applyIndustry]
  split_ifs <;> norm_num

theorem round2_intCast (n : ℤ) : round2 ((n : ℚ)) = (n : ℚ) := by
  unfold round2
  have hf : ⌊(n : ℚ) * 100 + 1 / 2⌋ = 100 * n := by
    apply Int.floor_eq_iff.2
    constructor
    · push_cast
      linarith
    · push_cast
      linarith
  rw [hf]
  push_cast
  ring

theorem rawScore_bounds (p : CandidateProfile) (j : JobPosting) :
    -30 ≤ (scoreState p j).1 ∧ (scoreState p j).1 ≤ 115 := by
  have hd := congrArg Prod.fst (scoreState_decomp p j)
  simp only [] at hd
  rw [hd]
  have b1 := skillDelta_bounds p j
  have b2 := titleDelta_bounds p j
  have b3 := remoteDelta_bounds p j
  have b4 := locationDelta_bounds p j
  have b5 := compDelta_bounds p j
  have b6 := expDelta_bounds p j
  have b7 := industryDelta_bounds p j
  constructor <;> linarith [b1.1, b1.2, b2.1, b2.2, b3.1, b3.2, b4.1, b4.2,
    b5.1, b5.2, b6.1, b6.2, b7.1, b7.2]

/-- Lowest-scoring sample: only the remote penalty and the compensation
penalty fire. -/
def pLo : CandidateProfile :=
  { name := "lo", skills := [], desired_titles := [], remote_only := true,
    min_compensation := some 100 }

def jLo : JobPosting :=
  { id := "lo", title := "T", company := "c", description := "d", skills := [],
    compensation := some 50 }

/-- Highest-scoring sample: every bonus fires with full overlap ratio. -/
def pHi : CandidateProfile :=
  { name := "hi", skills := ["python"], desired_titles := ["engineer"],
    location := some "NYC", remote_only := true, min_compensation := some 50,
    experience_level := some "Senior", industries := some ["Tech"] }

def jHi : JobPosting :=
  { id := "hi", title := "Engineer", company := "c", description := "d",
    skills := ["python"], location := some "nyc", remote := true,
    compensation := some 60, experience_level := some "senior",
    industry := some "tech" }

/-- C9: every score produced by the deterministic scorer lies in
[-30, 115], and both endpoints are attained: -30 when only the remote
(-20) and compensation (-10) penalties fire, 115 when every bonus fires
with full skill-overlap ratio (60 + 15 + 10 + 10 + 10 + 5 + 5). -/
theorem score_bounds (p : CandidateProfile) (j : JobPosting) :
    (-30 ≤ (scoreJob p j).score ∧ (scoreJob p j).score ≤ 115) ∧
    (scoreJob pLo jLo).score = -30 ∧ (scoreJob pHi jHi).score = 115 := by
  refine ⟨?hb, ?hlo, ?hhi⟩
  · have hsc : (scoreJob p j).score = round2 (scoreState p j).1 := rfl
    have hraw := rawScore_bounds p j
    have h30 : round2 (-30 : ℚ) = -30 := by
      have := round2_intCast (-30)
      push_cast at this
      exact this
    have h115 : round2 (115 : ℚ) = 115 := by
      have := round2_intCast 115
      push_cast at this
      exact this
    constructor
    · rw [hsc, ← h30]
      exact round2_mono hraw.1
    · rw [hsc, ← h115]
      exact round2_mono hraw.2
  · simp +decide [scoreJob, scoreState, applySkill, applyTitle, applyRemote,
      applyLocation, applyComp, applyExp, applyIndustry, pLo, jLo]
    norm_num [round2]
  · simp +decide [scoreJob, scoreState, applySkill, applyTitle, applyRemote,
      applyLocation, applyComp, applyExp, applyIndustry, pHi, jHi]
    norm_num [round2]

theorem mem_skillSet {x : String} {tokens : List String} :
    x ∈ skillSet tokens ↔ ∃ t ∈ tokens, pyStrip t ≠ "" ∧ x = normElem t := by
  rw [skillSet, List.mem_toFinset, mem_normalize]

theorem skillSet_append_single {s : String} (l : List String) (h : pyStrip s ≠ "") :
    skillSet (l ++ [s]) = insert (normElem s) (skillSet l) := by
  ext x
  rw [mem_skillSet, Finset.mem_insert, mem_skillSet]
  constructor
  · rintro ⟨t, ht, hts, rfl⟩
    rw [List.mem_append, List.mem_singleton] at ht
    rcases ht with ht | rfl
    · exact Or.inr ⟨t, ht, hts, rfl⟩
    · exact Or.inl rfl
  · rintro (rfl | ⟨t, ht, hts, rfl⟩)
    · exact ⟨s, by simp, h, rfl⟩
    · exact ⟨t, by simp [ht], hts, rfl⟩

/-- C8: appending to `profile.skills` a skill whose normalized form
occurs in the job's normalized skill set but not already in the
profile's never decreases that job's score. -/
theorem skill_monotonicity (p : CandidateProfile) (j : JobPosting) (s : String)
    (hs : normElem s ∈ skillSet j.skills)
    (hns : normElem s ∉ skillSet p.skills) :
    (scoreJob p j).score ≤ (scoreJob { p with skills := p.skills ++ [s] } j).score := by
  have hstrip : pyStrip s ≠ "" := by
    intro he
    have hmem : normElem s ∈ normalize j.skills := by
      rwa [skillSet, List.mem_toFinset] at hs
    exact (normalize_elem_fixed hmem).2.2 ((normElem_eq_empty_iff s).2 he)
  have hset : skillSet (p.skills ++ [s]) = insert (normElem s) (skillSet p.skills) :=
    skillSet_append_single p.skills hstrip
  have hnew : skillSet ({ p with skills := p.skills ++ [s] } : CandidateProfile).skills ∩
      skillSet j.skills =
      insert (normElem s) (skillSet p.skills ∩ skillSet j.skills) := by
    show skillSet (p.skills ++ [s]) ∩ skillSet j.skills = _
    rw [hset, Finset.insert_inter_of_mem hs]
  have hno : normElem s ∉ skillSet p.skills ∩ skillSet j.skills := by
    intro hmem
    exact hns (Finset.mem_inter.1 hmem).1
  have hcard : (skillSet ({ p with skills := p.skills ++ [s] } : CandidateProfile).skills ∩
      skillSet j.skills).card =
      (skillSet p.skills ∩ skillSet j.skills).card + 1 := by
    rw [hnew, Finset.card_insert_of_not_mem hno]
  have hne : skillSet ({ p with skills := p.skills ++ [s] } : CandidateProfile).skills ∩
      skillSet j.skills ≠ ∅ := by
    rw [hnew]
    exact (Finset.insert_nonempty _ _).ne_empty
  have hden : (0 : ℚ) < ((max (skillSet j.skills).card 1 : ℕ) : ℚ) := by
    have h1 : 1 ≤ max (skillSet j.skills).card 1 := le_max_right _ _
    exact_mod_cast lt_of_lt_of_le zero_lt_one (by exact_mod_cast h1)
  have hskill : ruleDelta (applySkill p j) ≤
      ruleDelta (applySkill { p with skills := p.skills ++ [s] } j) := by
    rw [skill_fire_delta hne, hcard]
    by_cases ho : skillSet p.skills ∩ skillSet j.skills ≠ ∅
    · rw [skill_fire_delta ho]
      have hc : ((skillSet p.skills ∩ skillSet j.skills).card : ℚ) ≤
          (((skillSet p.skills ∩ skillSet j.skills).card + 1 : ℕ) : ℚ) := by
        push_cast
        linarith
      gcongr
    · rw [not_not] at ho
      rw [(skill_nofire ho).1]
      positivity
  have hrest : restDelta ({ p with skills := p.skills ++ [s] } : CandidateProfile) j =
      restDelta p j := rfl
  have h1 := congrArg Prod.fst (scoreState_decomp_skill p j)
  have h2 := congrArg Prod.fst
    (scoreState_decomp_skill ({ p with skills := p.skills ++ [s] } : CandidateProfile) j)
  simp only [] at h1 h2
  have hraw : (scoreState p j).1 ≤
      (scoreState ({ p with skills := p.skills ++ [s] } : CandidateProfile) j).1 := by
    rw [h1, h2, hrest]
    linarith
  exact round2_mono hraw

/-- Closed instance of `skill_monotonicity`: adding " PYTHON " to an
empty skill list against a job requiring "python". -/
theorem skill_monotonicity_witness :
    (scoreJob { name := "w8", skills := [], desired_titles := [] } jW1).score ≤
      (scoreJob { ({ name := "w8", skills := [], desired_titles := [] } : CandidateProfile) with
        skills := ({ name := "w8", skills := [], desired_titles := [] } : CandidateProfile).skills
          ++ [" PYTHON "] } jW1).score :=
  skill_monotonicity { name := "w8", skills := [], desired_titles := [] } jW1
    (" PYTHON ") (by decide) (by decide)

/-- C10: the deterministic ranking sort is stable with the score as its
only key — scored recommendations with equal scores stay in input
order in the sorted list — and the returned list is exactly the
truncation of that sorted list. -/
theorem stable_sort_ties (p : CandidateProfile) (jobs : List JobPosting) (k : ℤ)
    (a b : Recommendation) (hab : [a, b] <+ jobs.map (scoreJob p))
    (hs : a.score = b.score) :
    [a, b] <+ (jobs.map (scoreJob p)).mergeSort descLE ∧
    deterministicRank p jobs k = pyTake ((jobs.map (scoreJob p)).mergeSort descLE) k := by
  constructor
  · have hle : descLE a b := by
      simp [descLE, hs]
    exact List.pair_sublist_mergeSort descLE_trans descLE_total hle hab
  · rfl

/-- Closed instance of `stable_sort_ties`: two equal-scoring jobs stay
in input order in the sorted scored list. -/
theorem stable_sort_ties_witness :
    [scoreJob pW jW1, scoreJob pW jW2] <+
      ([jW1, jW2].map (scoreJob pW)).mergeSort descLE ∧
    deterministicRank pW [jW1, jW2] 5 =
      pyTake (([jW1, jW2].map (scoreJob pW)).mergeSort descLE) 5 :=
  stable_sort_ties pW [jW1, jW2] 5 (scoreJob pW jW1) (scoreJob pW jW2)
    (by rw [List.map_cons, List.map_cons, List.map_nil]) rfl

end JobRec
